import Mathlib

/-!
Verification of the route-optimization core of `smart_bin.py` (Smart-Bin Lite).

The program builds a complete weighted graph over bin locations, filters bins
whose fill level exceeds a threshold into a critical set, plans a static route
visiting every location and a dynamic route visiting only critical locations
via a nearest-neighbor heuristic, and computes comparative distance metrics.

The shallow embedding below translates each piece of the Python source into a
Lean definition: integer arithmetic is exact, real-valued distances are modelled
over `ℚ` (with the final square root of the Euclidean weight taken in `ℝ`),
lookups that can raise `KeyError` in Python return `Option`/`Except` values.
-/

namespace SmartBin

/-- A networkx complete graph on `n` nodes with a weight per edge, as the
program always uses one (`G = nx.complete_graph(num_bins)` with a `weight`
attribute on every edge).  `w` records the stored weight for any ordered pair;
the program only ever reads it for distinct in-range nodes. -/
structure PyGraph where
  n : Nat
  w : Nat → Nat → ℚ

/-- Models the Python expression `graph[u][v]['weight']` on a complete graph:
the edge exists exactly when both endpoints are nodes and `u ≠ v` (a complete
graph has no self-loops), otherwise the access raises `KeyError`, modelled as
`none`. -/
def graph_weight (g : PyGraph) (u v : Nat) : Option ℚ :=
  if u < g.n ∧ v < g.n ∧ u ≠ v then some (g.w u v) else none

/-- Sum of the weights of the consecutive pairs of a route, `none` as soon as
one access `graph[u][v]['weight']` fails.  Embeds the loop
`for i in range(len(route) - 1): total_dist += graph[u][v]['weight']`
of `calculate_route_distance`. -/
def route_dist_go (g : PyGraph) : List Nat → Option ℚ
  | [] => some 0
  | [_] => some 0
  | u :: v :: rest => do
    let wuv ← graph_weight g u v
    let tail ← route_dist_go g (v :: rest)
    pure (wuv + tail)

/-- Embeds `calculate_route_distance(graph, route)`: total distance of a route,
scaled by 100 for display (`return total_dist * 100`). -/
def calculate_route_distance (g : PyGraph) (route : List Nat) : Option ℚ :=
  (route_dist_go g route).map (fun d => d * 100)

/-- One comparison step of Python's `min(..., key=f)`: the best-so-far `b` is
replaced by the next element `y` only when its key is strictly smaller, so the
earlier element wins ties. -/
def min_step (f : Nat → ℚ) (b y : Nat) : Nat := if f y < f b then y else b

/-- Python's `min(unvisited, key=f)`: first element attaining the minimal key
(`min` keeps the earlier element on ties); `none` on the empty list (Python
raises `ValueError` there, which the loop guard of `get_greedy_route`
precludes). -/
def min_by (f : Nat → ℚ) : List Nat → Option Nat
  | [] => none
  | x :: xs => some (xs.foldl (min_step f) x)

/-- The `while unvisited:` loop of `get_greedy_route`: repeatedly pick the
nearest unvisited node (`min(unvisited, key=lambda x: graph[current][x])`),
append it to the route and remove it from `unvisited`.  Each iteration removes
exactly one element, so running with `fuel = unvisited.length` is the loop. -/
def greedy_go (w : Nat → Nat → ℚ) : Nat → Nat → List Nat → List Nat
  | 0, _, _ => []
  | fuel + 1, cur, unvisited =>
    match min_by (w cur) unvisited with
    | none => []
    | some m => m :: greedy_go w fuel m (unvisited.erase m)

/-- Embeds `get_greedy_route(graph, nodes_to_visit)`: the nearest-neighbor dynamic
route.  `unvisited = nodes_to_visit.copy(); unvisited.remove(0)` (Python's
`list.remove` deletes the first occurrence), the route starts at the depot,
greedily visits every unvisited node and returns to the depot.  The weight
lookup `graph[current_node][x]['weight']` is abstracted as the total function
`w`, which agrees with the graph on the in-range distinct pairs that the loop
reads. -/
def get_greedy_route (w : Nat → Nat → ℚ) (nodes_to_visit : List Nat) : List Nat :=
  let unvisited := nodes_to_visit.erase 0
  0 :: greedy_go w unvisited.length 0 unvisited ++ [0]

/-- Embeds `static_route = list(range(num_bins)) + [0]`. -/
def static_route (n : Nat) : List Nat := List.range n ++ [0]

/-- The critical-bin filter: `critical_bins = [0]`, then every node of the
fill-level dict (insertion order `0, 1, ..., n-1`) with `node != 0 and
fill > fill_threshold` is appended. -/
def critical_bins (n : Nat) (fill : Nat → ℤ) (T : ℤ) : List Nat :=
  0 :: (List.range n).filter (fun i => i ≠ 0 ∧ T < fill i)

/-- The efficiency-saving computation:
`((dist_static - dist_dynamic) * 100) / dist_static` when `dist_static > 0`,
else `0`. -/
def efficiency_saving (dist_static dist_dynamic : ℚ) : ℚ :=
  if 0 < dist_static then ((dist_static - dist_dynamic) * 100) / dist_static else 0

/-! Lemmas about the minimum search of the nearest-neighbor loop. -/

lemma min_fold_mem (f : Nat → ℚ) (x : Nat) (xs : List Nat) :
    xs.foldl (min_step f) x ∈ x :: xs := by
  induction xs generalizing x with
  | nil => simp
  | cons y ys ih =>
    rw [List.foldl_cons]
    have h := ih (min_step f x y)
    rcases List.mem_cons.mp h with h1 | h1
    · rw [h1]
      unfold min_step
      split
      · exact List.mem_cons.mpr (Or.inr (List.mem_cons_self y ys))
      · exact List.mem_cons_self x _
    · exact List.mem_cons.mpr (Or.inr (List.mem_cons.mpr (Or.inr h1)))

lemma min_fold_le (f : Nat → ℚ) (x : Nat) (xs : List Nat) :
    ∀ y ∈ x :: xs, f (xs.foldl (min_step f) x) ≤ f y := by
  induction xs generalizing x with
  | nil =>
    intro y hy
    rcases List.mem_cons.mp hy with h | h
    · exact le_of_eq (congrArg f h.symm)
    · exact absurd h (List.not_mem_nil y)
  | cons z zs ih =>
    intro y hy
    have hstep_x : f (min_step f x z) ≤ f x := by
      unfold min_step
      split
      · exact le_of_lt (by assumption)
      · exact le_refl _
    have hstep_z : f (min_step f x z) ≤ f z := by
      unfold min_step
      split
      · exact le_refl _
      · exact le_of_not_lt (by assumption)
    have hres : f (zs.foldl (min_step f) (min_step f x z)) ≤ f (min_step f x z) :=
      ih (min_step f x z) (min_step f x z) (List.mem_cons_self _ _)
    rcases List.mem_cons.mp hy with h | h
    · exact (congrArg f h.symm) ▸ le_trans hres hstep_x
    · rcases List.mem_cons.mp h with h2 | h2
      · exact (congrArg f h2.symm) ▸ le_trans hres hstep_z
      · exact ih (min_step f x z) y (List.mem_cons.mpr (Or.inr h2))

lemma min_fold_eq_or_lt (f : Nat → ℚ) (x : Nat) (xs : List Nat) :
    xs.foldl (min_step f) x = x ∨ f (xs.foldl (min_step f) x) < f x := by
  induction xs generalizing x with
  | nil => exact Or.inl rfl
  | cons z zs ih =>
    by_cases h : f z < f x
    · have hstep : min_step f x z = z := by unfold min_step; simp [h]
      rcases ih (min_step f x z) with h1 | h1
      · right
        rw [List.foldl_cons, h1, hstep]
        exact h
      · right
        rw [List.foldl_cons]
        calc f (zs.foldl (min_step f) (min_step f x z)) < f (min_step f x z) := h1
          _ = f z := by rw [hstep]
          _ < f x := h
    · have hstep : min_step f x z = x := by unfold min_step; simp [h]
      rw [List.foldl_cons, hstep]
      exact ih x

/-- With a strictly increasing candidate list (as `critical_bins` produces),
the fold behind Python's `min` returns, among the elements of minimal key, the
one with the smallest identifier. -/
lemma min_fold_tie (f : Nat → ℚ) (x : Nat) (xs : List Nat)
    (hs : (x :: xs).Pairwise (· < ·)) :
    ∀ y ∈ x :: xs, f (xs.foldl (min_step f) x) < f y ∨ xs.foldl (min_step f) x ≤ y := by
  induction xs generalizing x with
  | nil =>
    intro y hy
    rcases List.mem_cons.mp hy with h | h
    · exact Or.inr (le_of_eq h.symm)
    · exact absurd h (List.not_mem_nil y)
  | cons z zs ih =>
    intro y hy
    have hxz : x < z := (List.pairwise_cons.mp hs).1 z (List.mem_cons_self _ _)
    have hzzs : (z :: zs).Pairwise (· < ·) := (List.pairwise_cons.mp hs).2
    have hxzs : (x :: zs).Pairwise (· < ·) := by
      refine List.pairwise_cons.mpr ⟨?_, (List.pairwise_cons.mp hzzs).2⟩
      intro a ha
      exact lt_trans hxz ((List.pairwise_cons.mp hzzs).1 a ha)
    by_cases hcmp : f z < f x
    · have hstep : min_step f x z = z := by unfold min_step; simp [hcmp]
      rw [List.foldl_cons, hstep]
      rcases List.mem_cons.mp hy with h | h
      · -- y = x, discarded in favour of the strictly smaller key of z
        left
        have : f (zs.foldl (min_step f) z) ≤ f z :=
          min_fold_le f z zs z (List.mem_cons_self _ _)
        calc f (zs.foldl (min_step f) z) ≤ f z := this
          _ < f x := hcmp
          _ = f y := congrArg f h.symm
      · exact ih z hzzs y h
    · have hstep : min_step f x z = x := by unfold min_step; simp [hcmp]
      rw [List.foldl_cons, hstep]
      rcases List.mem_cons.mp hy with h | h
      · exact h ▸ ih x hxzs x (List.mem_cons_self _ _)
      · rcases List.mem_cons.mp h with h2 | h2
        · -- y = z, kept out in favour of the earlier x of no larger key
          rcases min_fold_eq_or_lt f x zs with h3 | h3
          · right
            rw [h3, h2]
            exact le_of_lt hxz
          · left
            calc f (zs.foldl (min_step f) x) < f x := h3
              _ ≤ f z := le_of_not_lt hcmp
              _ = f y := congrArg f h2.symm
        · exact ih x hxzs y (List.mem_cons.mpr (Or.inr h2))

lemma min_by_eq_none_iff (f : Nat → ℚ) (l : List Nat) :
    min_by f l = none ↔ l = [] := by
  cases l <;> simp [min_by]

lemma min_by_mem {f : Nat → ℚ} {l : List Nat} {m : Nat}
    (h : min_by f l = some m) : m ∈ l := by
  cases l with
  | nil => simp [min_by] at h
  | cons x xs =>
    simp only [min_by, Option.some.injEq] at h
    exact h ▸ min_fold_mem f x xs

lemma min_by_le {f : Nat → ℚ} {l : List Nat} {m : Nat}
    (h : min_by f l = some m) : ∀ y ∈ l, f m ≤ f y := by
  cases l with
  | nil => simp [min_by] at h
  | cons x xs =>
    simp only [min_by, Option.some.injEq] at h
    exact h ▸ min_fold_le f x xs

lemma min_by_tie {f : Nat → ℚ} {l : List Nat} {m : Nat}
    (hs : l.Pairwise (· < ·)) (h : min_by f l = some m) :
    ∀ y ∈ l, f y = f m → m ≤ y := by
  cases l with
  | nil => simp [min_by] at h
  | cons x xs =>
    simp only [min_by, Option.some.injEq] at h
    intro y hy hfy
    rcases h ▸ min_fold_tie f x xs hs y hy with h1 | h1
    · exact absurd (h ▸ hfy ▸ h1) (lt_irrefl _)
    · exact h ▸ h1

/-! Lemmas about the greedy loop. -/

lemma greedy_go_perm (w : Nat → Nat → ℚ) :
    ∀ fuel cur (l : List Nat), l.length ≤ fuel → (greedy_go w fuel cur l).Perm l := by
  intro fuel
  induction fuel with
  | zero =>
    intro cur l hl
    have : l = [] := List.eq_nil_of_length_eq_zero (Nat.le_zero.mp hl)
    simp [greedy_go, this]
  | succ fuel ih =>
    intro cur l hl
    cases hmin : min_by (w cur) l with
    | none =>
      have : l = [] := (min_by_eq_none_iff _ _).mp hmin
      subst this
      simp [greedy_go, min_by]
    | some m =>
      have hm : m ∈ l := min_by_mem hmin
      have hlen : (l.erase m).length ≤ fuel := by
        rw [List.length_erase_of_mem hm]
        omega
      have hperm : (greedy_go w fuel m (l.erase m)).Perm (l.erase m) := ih m _ hlen
      have : greedy_go w (fuel + 1) cur l = m :: greedy_go w fuel m (l.erase m) := by
        simp [greedy_go, hmin]
      rw [this]
      exact (hperm.cons m).trans (List.perm_cons_erase hm).symm

/-- The distance loop succeeds on a route whose consecutive pairs are all
edges of the complete graph, and returns the sum of their weights. -/
lemma route_dist_go_eq_sum (g : PyGraph) :
    ∀ route : List Nat,
      (∀ p ∈ route.zip route.tail, p.1 < g.n ∧ p.2 < g.n ∧ p.1 ≠ p.2) →
      route_dist_go g route = some ((route.zip route.tail).map (fun p => g.w p.1 p.2)).sum := by
  intro route
  match route with
  | [] => intro _; simp [route_dist_go]
  | [u] => intro _; simp [route_dist_go]
  | u :: v :: rest =>
    intro h
    have hd : (u, v) ∈ (u :: v :: rest).zip (u :: v :: rest).tail := by
      simp [List.zip_cons_cons]
    have huv := h (u, v) hd
    have htail := route_dist_go_eq_sum g (v :: rest) (by
      intro p hp
      refine h p ?_
      simp only [List.tail_cons, List.zip_cons_cons]
      exact List.mem_cons.mpr (Or.inr hp))
    simp only [route_dist_go, graph_weight, if_pos huv, htail, List.tail_cons,
      List.zip_cons_cons, List.map_cons, List.sum_cons, Option.bind_eq_bind,
      Option.some_bind]
    rfl

/-- Failure of the graph-construction loop.  Python raises `KeyError k` when
the position dict `pos` lacks key `k`; the `InvalidGeometry` condition named by
the specification has no counterpart anywhere in the code and is included so
that its absence can be stated. -/
inductive BuildError where
  | keyError (k : Nat)
  | invalidGeometry
deriving DecidableEq

/-- Squared Euclidean distance `(x_u - x_v)^2 + (y_u - y_v)^2` between two
positions: the radicand of `math.sqrt((pos[u][0] - pos[v][0])**2 +
(pos[u][1] - pos[v][1])**2)`. -/
def sq_dist (p q : ℚ × ℚ) : ℚ := (p.1 - q.1) ^ 2 + (p.2 - q.2) ^ 2

/-- The loop `for (u, v) in G.edges(): dist = ...; G.edges[u, v]['weight'] =
dist`: each edge gets the distance between its endpoints' positions, stored
here as the rational squared distance (the square root, a real number, is
taken by `edge_weight` below).  A missing dict key `pos[u]` aborts the loop
with `KeyError u`, first failure first, as in Python. -/
def build_edges (pos : Nat → Option (ℚ × ℚ)) :
    List (Nat × Nat) → Except BuildError (List ((Nat × Nat) × ℚ))
  | [] => Except.ok []
  | e :: rest =>
    match pos e.1 with
    | none => Except.error (BuildError.keyError e.1)
    | some pu =>
      match pos e.2 with
      | none => Except.error (BuildError.keyError e.2)
      | some pv =>
        match build_edges pos rest with
        | Except.error err => Except.error err
        | Except.ok tail => Except.ok ((e, sq_dist pu pv) :: tail)

/-- The edge list of `nx.complete_graph(n)`: every pair `(u, v)` with
`u < v < n`, in iteration order. -/
def edge_pairs (n : Nat) : List (Nat × Nat) :=
  (List.range n).flatMap
    (fun u => ((List.range n).filter (fun v => u < v)).map (fun v => (u, v)))

/-- Embeds `G = nx.complete_graph(num_bins)` followed by the weight-assignment loop
over `G.edges()`. -/
def build_graph (n : Nat) (pos : Nat → Option (ℚ × ℚ)) :
    Except BuildError (List ((Nat × Nat) × ℚ)) :=
  build_edges pos (edge_pairs n)

/-- Embeds `G.edges[u, v]['weight']` (squared) on the built edge list: networkx
resolves the unordered pair, so the lookup matches the stored pair in either
orientation; `none` when no edge joins `u` and `v`. -/
def graph_sq_weight (g : List ((Nat × Nat) × ℚ)) (u v : Nat) : Option ℚ :=
  (g.find? (fun e => (e.1.1 == u && e.1.2 == v) || (e.1.1 == v && e.1.2 == u))).map Prod.snd

/-- The real-valued edge weight `math.sqrt(dx^2 + dy^2)` of the built graph. -/
noncomputable def edge_weight (g : List ((Nat × Nat) × ℚ)) (u v : Nat) : Option ℝ :=
  (graph_sq_weight g u v).map (fun q => Real.sqrt (q : ℝ))

lemma sq_dist_comm (p q : ℚ × ℚ) : sq_dist p q = sq_dist q p := by
  unfold sq_dist
  ring

lemma mem_edge_pairs (n u v : Nat) : (u, v) ∈ edge_pairs n ↔ u < v ∧ v < n := by
  simp only [edge_pairs, List.mem_flatMap, List.mem_map, List.mem_filter,
    List.mem_range, decide_eq_true_eq, Prod.mk.injEq]
  constructor
  · rintro ⟨a, ha, b, ⟨⟨hbn, hab⟩, rfl, rfl⟩⟩
    exact ⟨hab, hbn⟩
  · rintro ⟨huv, hvn⟩
    exact ⟨u, lt_trans huv hvn, v, ⟨⟨hvn, huv⟩, rfl, rfl⟩⟩

/-- With a total position mapping the loop runs to completion and stores the
squared distance of every listed edge. -/
lemma build_edges_total (pos : Nat → ℚ × ℚ) (l : List (Nat × Nat)) :
    build_edges (fun i => some (pos i)) l =
      Except.ok (l.map (fun e => (e, sq_dist (pos e.1) (pos e.2)))) := by
  induction l with
  | nil => rfl
  | cons a as ih => simp [build_edges, ih]

/-- Every failure of the loop is a `KeyError` on a missing position key. -/
lemma build_edges_error_chr (pos : Nat → Option (ℚ × ℚ)) :
    ∀ (l : List (Nat × Nat)) (err : BuildError),
      build_edges pos l = Except.error err →
      ∃ k, err = BuildError.keyError k ∧ pos k = none := by
  intro l
  induction l with
  | nil =>
    intro err h
    simp [build_edges] at h
  | cons a as ih =>
    intro err h
    rw [build_edges] at h
    cases h1 : pos a.1 with
    | none =>
      rw [h1] at h
      exact ⟨a.1, (Except.error.inj h).symm, h1⟩
    | some pu =>
      rw [h1] at h
      cases h2 : pos a.2 with
      | none =>
        rw [h2] at h
        exact ⟨a.2, (Except.error.inj h).symm, h2⟩
      | some pv =>
        rw [h2] at h
        cases h3 : build_edges pos as with
        | error e2 =>
          rw [h3] at h
          exact (Except.error.inj h) ▸ ih e2 h3
        | ok xs =>
          rw [h3] at h
          exact Except.noConfusion h

/-- The loop fails whenever some listed edge has an endpoint with no
position. -/
lemma build_edges_error_of_mem (pos : Nat → Option (ℚ × ℚ)) :
    ∀ (l : List (Nat × Nat)) (e : Nat × Nat), e ∈ l →
      (pos e.1 = none ∨ pos e.2 = none) →
      ∃ err, build_edges pos l = Except.error err := by
  intro l
  induction l with
  | nil =>
    intro e he _
    exact absurd he (List.not_mem_nil e)
  | cons a as ih =>
    intro e he hbad
    cases h1 : pos a.1 with
    | none => exact ⟨BuildError.keyError a.1, by rw [build_edges, h1]⟩
    | some pu =>
      cases h2 : pos a.2 with
      | none => exact ⟨BuildError.keyError a.2, by rw [build_edges, h1, h2]⟩
      | some pv =>
        have hea : e ≠ a := by
          rintro rfl
          rcases hbad with hb | hb
          · rw [h1] at hb
            exact Option.noConfusion hb
          · rw [h2] at hb
            exact Option.noConfusion hb
        have hmem : e ∈ as := by
          rcases List.mem_cons.mp he with h | h
          · exact absurd h hea
          · exact h
        obtain ⟨err, herr⟩ := ih e hmem hbad
        exact ⟨err, by rw [build_edges, h1, h2, herr]⟩

/-- Looking up any unordered pair present in the built edge list yields the
squared distance of its endpoints. -/
lemma graph_sq_weight_of_mem (pos : Nat → ℚ × ℚ) (u v : Nat) :
    ∀ l : List (Nat × Nat),
      ((u, v) ∈ l ∨ (v, u) ∈ l) →
      graph_sq_weight (l.map (fun e => (e, sq_dist (pos e.1) (pos e.2)))) u v
        = some (sq_dist (pos u) (pos v)) := by
  intro l
  induction l with
  | nil =>
    intro h
    rcases h with h | h <;> exact absurd h (List.not_mem_nil _)
  | cons a as ih =>
    intro h
    by_cases hav : a = (u, v)
    · subst hav
      simp [graph_sq_weight]
    · by_cases havu : a = (v, u)
      · subst havu
        simp [graph_sq_weight, sq_dist_comm (pos v) (pos u)]
      · have hpred : (a.1 == u && a.2 == v || a.1 == v && a.2 == u) = false := by
          rw [Bool.eq_false_iff]
          intro h0
          simp only [Bool.or_eq_true, Bool.and_eq_true, beq_iff_eq] at h0
          rcases h0 with ⟨h1, h2⟩ | ⟨h1, h2⟩
          · exact hav (Prod.ext h1 h2)
          · exact havu (Prod.ext h1 h2)
        have hmem : (u, v) ∈ as ∨ (v, u) ∈ as := by
          rcases h with h | h
          · rcases List.mem_cons.mp h with h2 | h2
            · exact absurd h2.symm hav
            · exact Or.inl h2
          · rcases List.mem_cons.mp h with h2 | h2
            · exact absurd h2.symm havu
            · exact Or.inr h2
        have hstep := ih hmem
        rw [graph_sq_weight] at hstep ⊢
        rw [List.map_cons, List.find?_cons]
        simpa [hpred] using hstep

/-- A tiny heap of Python list objects: addresses are indices into `cells`.
It makes the in-place mutation of `get_greedy_route` explicit, so that the
frame property — the caller's `nodes_to_visit` object is untouched — is a
statement and not a modelling artefact. -/
structure PyHeap where
  cells : List (List Nat)

/-- Dereference a list address. -/
def heap_read (s : PyHeap) (a : Nat) : List Nat := s.cells.getD a []

/-- In-place update of the list object at an address. -/
def heap_write (s : PyHeap) (a : Nat) (v : List Nat) : PyHeap := ⟨s.cells.set a v⟩

/-- Allocate a fresh list object, as `list.copy()` does, returning its
address. -/
def heap_alloc (s : PyHeap) (v : List Nat) : PyHeap × Nat :=
  (⟨s.cells ++ [v]⟩, s.cells.length)

/-- The `while unvisited:` loop of `get_greedy_route` with the `unvisited`
list held in the heap at address `au`: each iteration reads it, removes the
chosen node in place (`unvisited.remove(nearest_node)`) and extends the local
route. -/
def greedy_loop_heap (w : Nat → Nat → ℚ) :
    Nat → Nat → Nat → PyHeap → List Nat → PyHeap × List Nat
  | 0, _, _, s, route => (s, route)
  | fuel + 1, au, cur, s, route =>
    match min_by (w cur) (heap_read s au) with
    | none => (s, route)
    | some m =>
      greedy_loop_heap w fuel au m
        (heap_write s au ((heap_read s au).erase m)) (route ++ [m])

/-- Embeds `get_greedy_route` acting on a caller-owned list object at address `arg`:
`unvisited = nodes_to_visit.copy()` allocates a fresh cell,
`unvisited.remove(0)` and the loop mutate only that fresh cell, and the
depot-closed route is returned along with the final heap. -/
def get_greedy_route_heap (w : Nat → Nat → ℚ) (s : PyHeap) (arg : Nat) :
    PyHeap × List Nat :=
  let s1 := (heap_alloc s (heap_read s arg)).1
  let au := (heap_alloc s (heap_read s arg)).2
  let s2 := heap_write s1 au ((heap_read s1 au).erase 0)
  let out := greedy_loop_heap w (heap_read s2 au).length au 0 s2 [0]
  (out.1, out.2 ++ [0])

lemma heap_read_write_ne (s : PyHeap) (a b : Nat) (v : List Nat) (h : b ≠ a) :
    heap_read (heap_write s a v) b = heap_read s b := by
  simp [heap_read, heap_write, List.getD_eq_getElem?_getD,
    List.getElem?_set_ne (fun hh => h hh.symm)]

lemma heap_read_write_self (s : PyHeap) (a : Nat) (v : List Nat)
    (h : a < s.cells.length) :
    heap_read (heap_write s a v) a = v := by
  simp [heap_read, heap_write, List.getD_eq_getElem?_getD, List.getElem?_set_self, h]

lemma heap_write_length (s : PyHeap) (a : Nat) (v : List Nat) :
    (heap_write s a v).cells.length = s.cells.length := by
  simp [heap_write]

/-- The heap-level loop computes the same visiting order as the pure loop on
the pointed-to list, and touches no list object other than the one at `au`. -/
lemma greedy_loop_heap_spec (w : Nat → Nat → ℚ) :
    ∀ (fuel au cur : Nat) (s : PyHeap) (route : List Nat),
      au < s.cells.length →
      (greedy_loop_heap w fuel au cur s route).2
          = route ++ greedy_go w fuel cur (heap_read s au) ∧
      ∀ b, b ≠ au →
        heap_read (greedy_loop_heap w fuel au cur s route).1 b = heap_read s b := by
  intro fuel
  induction fuel with
  | zero =>
    intro au cur s route hau
    exact ⟨by simp [greedy_loop_heap, greedy_go], fun b _ => rfl⟩
  | succ fuel ih =>
    intro au cur s route hau
    cases hmin : min_by (w cur) (heap_read s au) with
    | none =>
      refine ⟨?_, fun b _ => by simp [greedy_loop_heap, hmin]⟩
      simp [greedy_loop_heap, greedy_go, hmin]
    | some m =>
      have hstep : greedy_loop_heap w (fuel + 1) au cur s route
          = greedy_loop_heap w fuel au m
              (heap_write s au ((heap_read s au).erase m)) (route ++ [m]) := by
        simp [greedy_loop_heap, hmin]
      have hau2 : au < (heap_write s au ((heap_read s au).erase m)).cells.length := by
        rw [heap_write_length]
        exact hau
      have hread : heap_read (heap_write s au ((heap_read s au).erase m)) au
          = (heap_read s au).erase m := heap_read_write_self s au _ hau
      obtain ⟨hroute, hframe⟩ := ih au m (heap_write s au ((heap_read s au).erase m))
        (route ++ [m]) hau2
      constructor
      · rw [hstep, hroute, hread]
        simp [greedy_go, hmin]
      · intro b hb
        rw [hstep, hframe b hb, heap_read_write_ne s au b _ hb]

/-- The critical filter appends the non-depot ids in increasing order after
the depot, so the critical list is strictly increasing. -/
lemma critical_bins_sorted (n : Nat) (fill : Nat → ℤ) (T : ℤ) :
    (critical_bins n fill T).Pairwise (· < ·) := by
  unfold critical_bins
  refine List.pairwise_cons.mpr ⟨?_, (List.pairwise_lt_range n).filter _⟩
  intro a ha
  have h1 : a ≠ 0 := by
    have := (List.mem_filter.mp ha).2
    simp only [decide_eq_true_eq] at this
    exact this.1
  omega

/-! ## Claim theorems -/

/-- C1: for every distance graph and every duplicate-free critical set
containing the depot 0, `get_greedy_route` returns a route that starts with 0,
ends with 0, and whose interior elements are exactly the members of the
critical set other than 0, each appearing exactly once. -/
theorem greedy_route_bookends_and_interior (w : Nat → Nat → ℚ) (l : List Nat)
    (h0 : 0 ∈ l) (hnd : l.Nodup) :
    ∃ r, get_greedy_route w l = 0 :: (r ++ [0]) ∧
      (get_greedy_route w l).head? = some 0 ∧
      (get_greedy_route w l).getLast? = some 0 ∧
      r.Perm (l.erase 0) ∧
      0 ∉ r ∧ r.Nodup ∧ ∀ x, x ≠ 0 → (x ∈ r ↔ x ∈ l) := by
  refine ⟨greedy_go w (l.erase 0).length 0 (l.erase 0), rfl, rfl, ?_, ?_⟩
  · show ((0 :: greedy_go w (l.erase 0).length 0 (l.erase 0)) ++ [0]).getLast? = some 0
    rw [List.getLast?_concat]
  · have hperm : (greedy_go w (l.erase 0).length 0 (l.erase 0)).Perm (l.erase 0) :=
      greedy_go_perm w _ 0 _ (le_refl _)
    refine ⟨hperm, ?_, ?_, ?_⟩
    · intro hmem
      have := hnd.mem_erase_iff.mp (hperm.mem_iff.mp hmem)
      exact this.1 rfl
    · exact hperm.nodup_iff.mpr (hnd.erase 0)
    · intro x hx
      rw [hperm.mem_iff, hnd.mem_erase_iff]
      exact and_iff_right hx

/-- Witness for C1 at a concrete graph and critical set. -/
theorem greedy_route_bookends_and_interior_witness :
    (0 ∈ [0, 2, 5] ∧ ([0, 2, 5] : List Nat).Nodup) ∧
      ∃ r, get_greedy_route (fun u v : Nat => ((u : ℚ) - v) ^ 2) [0, 2, 5] = 0 :: (r ++ [0]) ∧
        (get_greedy_route (fun u v : Nat => ((u : ℚ) - v) ^ 2) [0, 2, 5]).head? = some 0 ∧
        (get_greedy_route (fun u v : Nat => ((u : ℚ) - v) ^ 2) [0, 2, 5]).getLast? = some 0 ∧
        r.Perm ([0, 2, 5].erase 0) ∧
        0 ∉ r ∧ r.Nodup ∧ ∀ x, x ≠ 0 → (x ∈ r ↔ x ∈ [0, 2, 5]) :=
  ⟨⟨by decide, by decide⟩,
    greedy_route_bookends_and_interior (fun u v : Nat => ((u : ℚ) - v) ^ 2) [0, 2, 5]
      (by decide) (by decide)⟩

/-- C2: the critical filter always contains the depot 0, and a non-depot id
`i` of the fill-level mapping is a member exactly when its fill level strictly
exceeds the threshold. -/
theorem critical_bins_membership (n : Nat) (fill : Nat → ℤ) (T : ℤ)
    (hT0 : 0 ≤ T) (hT1 : T ≤ 100) :
    0 ∈ critical_bins n fill T ∧
      ∀ i, i < n → i ≠ 0 → (i ∈ critical_bins n fill T ↔ T < fill i) := by
  refine ⟨List.mem_cons_self _ _, ?_⟩
  intro i hi hne
  simp [critical_bins, List.mem_filter, List.mem_range, hne, hi]

/-- Witness for C2 at a concrete fill mapping and threshold. -/
theorem critical_bins_membership_witness :
    ((0 : ℤ) ≤ 75 ∧ (75 : ℤ) ≤ 100) ∧
      0 ∈ critical_bins 3 (fun i => if i = 2 then 90 else 50) 75 ∧
        ∀ i, i < 3 → i ≠ 0 →
          (i ∈ critical_bins 3 (fun i => if i = 2 then 90 else 50) 75 ↔
            (75 : ℤ) < (if i = 2 then 90 else 50)) :=
  ⟨⟨by decide, by decide⟩,
    critical_bins_membership 3 (fun i => if i = 2 then 90 else 50) 75
      (by decide) (by decide)⟩

/-- C3: when the critical set is only the depot, the dynamic route is
`[0, 0]`; but `calculate_route_distance` on `[0, 0]` accesses the nonexistent
self-loop edge `graph[0][0]` of the complete graph, which raises `KeyError`
(modelled as `none`) instead of returning distance 0. -/
theorem depot_only_route_and_distance_keyerror (g : PyGraph) (w : Nat → Nat → ℚ) :
    get_greedy_route w [0] = [0, 0] ∧ calculate_route_distance g [0, 0] = none := by
  constructor
  · rfl
  · simp [calculate_route_distance, route_dist_go, graph_weight]

/-- C4: the efficiency saving equals `((static - dynamic) * 100) / static`
when `static > 0`, equals 0 when `static = 0`, and is `60` at
`static = 1000, dynamic = 400`. -/
theorem efficiency_saving_spec (s d : ℚ) :
    (0 < s → efficiency_saving s d = ((s - d) * 100) / s) ∧
      (s = 0 → efficiency_saving s d = 0) ∧
      efficiency_saving 1000 400 = 60 := by
  refine ⟨?_, ?_, ?_⟩
  · intro h
    simp [efficiency_saving, h]
  · intro h
    simp [efficiency_saving, h]
  · norm_num [efficiency_saving]

/-- Witness for C4 at concrete distances. -/
theorem efficiency_saving_spec_witness :
    efficiency_saving 1000 400 = ((1000 - 400) * 100) / 1000 ∧
      efficiency_saving 0 5 = 0 :=
  ⟨(efficiency_saving_spec 1000 400).1 (by norm_num),
    (efficiency_saving_spec 0 5).2.1 rfl⟩

/-- C5: at every step of the nearest-neighbor loop run on a critical set (the
unvisited lists of such a run are exactly the sublists of the critical list
without the depot that the loop reaches), the planner selects an unvisited
member of minimum edge weight from the current position, and among members of
equal minimum weight the one with the lowest identifier. -/
theorem greedy_step_min_weight_lowest_id (w : Nat → Nat → ℚ) (n : Nat)
    (fill : Nat → ℤ) (T : ℤ) (cur : Nat) (s : List Nat)
    (hsub : s.Sublist ((critical_bins n fill T).erase 0)) (hne : s ≠ []) :
    ∃ m, min_by (w cur) s = some m ∧
      (∀ fuel, greedy_go w (fuel + 1) cur s = m :: greedy_go w fuel m (s.erase m)) ∧
      m ∈ s ∧
      (∀ y ∈ s, w cur m ≤ w cur y) ∧
      (∀ y ∈ s, w cur y = w cur m → m ≤ y) ∧
      (s.erase m).Sublist ((critical_bins n fill T).erase 0) := by
  have hsorted : s.Pairwise (· < ·) :=
    ((critical_bins_sorted n fill T).sublist (List.erase_sublist 0 _)).sublist hsub
  cases hmin : min_by (w cur) s with
  | none => exact absurd ((min_by_eq_none_iff _ _).mp hmin) hne
  | some m =>
    refine ⟨m, rfl, ?_, min_by_mem hmin, min_by_le hmin, min_by_tie hsorted hmin,
      (List.erase_sublist m s).trans hsub⟩
    intro fuel
    simp [greedy_go, hmin]

/-- Witness for C5 at the first step of the scenario-C run: `n = 4`, fill
levels `{1: 80, 2: 10, 3: 99}`, threshold 75, current position the depot. -/
theorem greedy_step_min_weight_lowest_id_witness :
    (([1, 3] : List Nat).Sublist
        ((critical_bins 4 (fun i => if i = 1 then 80 else if i = 3 then 99 else 10) 75).erase 0) ∧
      ([1, 3] : List Nat) ≠ []) ∧
      ∃ m, min_by ((fun u v : Nat => ((u : ℚ) - v) ^ 2) 0) [1, 3] = some m ∧
        (∀ fuel, greedy_go (fun u v : Nat => ((u : ℚ) - v) ^ 2) (fuel + 1) 0 [1, 3] =
          m :: greedy_go (fun u v : Nat => ((u : ℚ) - v) ^ 2) fuel m ([1, 3].erase m)) ∧
        m ∈ ([1, 3] : List Nat) ∧
        (∀ y ∈ ([1, 3] : List Nat),
          (fun u v : Nat => ((u : ℚ) - v) ^ 2) 0 m ≤ (fun u v : Nat => ((u : ℚ) - v) ^ 2) 0 y) ∧
        (∀ y ∈ ([1, 3] : List Nat),
          (fun u v : Nat => ((u : ℚ) - v) ^ 2) 0 y = (fun u v : Nat => ((u : ℚ) - v) ^ 2) 0 m → m ≤ y) ∧
        (([1, 3] : List Nat).erase m).Sublist
          ((critical_bins 4 (fun i => if i = 1 then 80 else if i = 3 then 99 else 10) 75).erase 0) :=
  ⟨⟨by decide, by decide⟩,
    greedy_step_min_weight_lowest_id (fun u v : Nat => ((u : ℚ) - v) ^ 2) 4
      (fun i => if i = 1 then 80 else if i = 3 then 99 else 10) 75 0 [1, 3]
      (by decide) (by decide)⟩

/-- C6: the static route is exactly `[0, 1, ..., n-1, 0]` for every `n ≥ 1`:
it has length `n + 1`, position `i` holds `i` for every `i < n`, and position
`n` holds the depot 0. -/
theorem static_route_identity (n : Nat) (h : 1 ≤ n) :
    (static_route n).length = n + 1 ∧
      (∀ i, i < n → (static_route n)[i]? = some i) ∧
      (static_route n)[n]? = some 0 := by
  refine ⟨by simp [static_route], ?_, ?_⟩
  · intro i hi
    rw [static_route, List.getElem?_append]
    simp [hi]
  · rw [static_route, List.getElem?_append]
    simp

/-- Witness for C6 at `n = 3`. -/
theorem static_route_identity_witness :
    1 ≤ 3 ∧
      (static_route 3).length = 3 + 1 ∧
        (∀ i, i < 3 → (static_route 3)[i]? = some i) ∧
        (static_route 3)[3]? = some 0 :=
  ⟨by decide, static_route_identity 3 (by decide)⟩

/-- C7: on a route all of whose consecutive pairs are edges of the graph, the
metrics calculator returns the sum of the consecutive edge weights scaled by
the fixed display factor 100. -/
theorem calculate_route_distance_eq_sum (g : PyGraph) (route : List Nat)
    (h : ∀ p ∈ route.zip route.tail, p.1 < g.n ∧ p.2 < g.n ∧ p.1 ≠ p.2) :
    calculate_route_distance g route =
      some (((route.zip route.tail).map (fun p => g.w p.1 p.2)).sum * 100) := by
  rw [calculate_route_distance, route_dist_go_eq_sum g route h]
  rfl

/-- C8: with a total (well-formed) position mapping, the builder succeeds and
the built graph is complete — every unordered pair of distinct locations has a
stored weight — with the weight the Euclidean distance between the endpoints'
positions (stored squared, its real value the square root), and the lookup is
symmetric: `weight(u,v) = weight(v,u)`. -/
theorem build_graph_complete_euclidean_symmetric (n : Nat) (pos : Nat → ℚ × ℚ)
    (hn : 2 ≤ n) :
    ∃ g, build_graph n (fun i => some (pos i)) = Except.ok g ∧
      ∀ u v, u < n → v < n → u ≠ v →
        graph_sq_weight g u v = some (sq_dist (pos u) (pos v)) ∧
        edge_weight g u v = some (Real.sqrt ((sq_dist (pos u) (pos v) : ℚ) : ℝ)) ∧
        graph_sq_weight g u v = graph_sq_weight g v u := by
  refine ⟨(edge_pairs n).map (fun e => (e, sq_dist (pos e.1) (pos e.2))),
    build_edges_total pos (edge_pairs n), ?_⟩
  intro u v hu hv hne
  have hmem : (u, v) ∈ edge_pairs n ∨ (v, u) ∈ edge_pairs n := by
    rcases Nat.lt_or_ge u v with h | h
    · exact Or.inl ((mem_edge_pairs n u v).mpr ⟨h, hv⟩)
    · have hvu : v < u := lt_of_le_of_ne h (fun hvu => hne hvu.symm)
      exact Or.inr ((mem_edge_pairs n v u).mpr ⟨hvu, hu⟩)
  have h1 := graph_sq_weight_of_mem pos u v (edge_pairs n) hmem
  have h2 := graph_sq_weight_of_mem pos v u (edge_pairs n) hmem.symm
  refine ⟨h1, ?_, ?_⟩
  · rw [edge_weight, h1]
    rfl
  · rw [h1, h2, sq_dist_comm]

/-- Witness for C8 at two concrete positions. -/
theorem build_graph_complete_euclidean_symmetric_witness :
    2 ≤ 2 ∧
      ∃ g, build_graph 2 (fun i => some (((i : ℚ), (0 : ℚ)))) = Except.ok g ∧
        ∀ u v, u < 2 → v < 2 → u ≠ v →
          graph_sq_weight g u v
              = some (sq_dist (((u : ℚ), (0 : ℚ))) (((v : ℚ), (0 : ℚ)))) ∧
          edge_weight g u v
              = some (Real.sqrt ((sq_dist (((u : ℚ), (0 : ℚ))) (((v : ℚ), (0 : ℚ))) : ℚ) : ℝ)) ∧
          graph_sq_weight g u v = graph_sq_weight g v u :=
  ⟨by decide,
    build_graph_complete_euclidean_symmetric 2 (fun i => ((i : ℚ), (0 : ℚ))) (by decide)⟩

/-- C9 counterexample: with two locations and the coordinate of location 1
missing, the builder fails with the uncaught lookup failure `KeyError 1`, not
with an `InvalidGeometry` condition — no such condition exists in the code. -/
theorem build_graph_missing_coordinate_keyerror :
    build_graph 2 (fun i => if i = 0 then some ((0 : ℚ), (0 : ℚ)) else none)
        = Except.error (BuildError.keyError 1) ∧
      build_graph 2 (fun i => if i = 0 then some ((0 : ℚ), (0 : ℚ)) else none)
        ≠ Except.error BuildError.invalidGeometry := by
  refine ⟨rfl, ?_⟩
  intro h
  rw [show build_graph 2 (fun i => if i = 0 then some ((0 : ℚ), (0 : ℚ)) else none)
      = Except.error (BuildError.keyError 1) from rfl] at h
  exact BuildError.noConfusion (Except.error.inj h)

/-- C9 (amended): the builder performs no geometry validation of its own — it
never produces an `InvalidGeometry` condition; every failure is a `KeyError`
on an id with no position, and with `n ≥ 2` a missing coordinate of any
location does make the construction fail with such a `KeyError`. -/
theorem build_graph_error_is_keyerror (n : Nat) (pos : Nat → Option (ℚ × ℚ)) :
    build_graph n pos ≠ Except.error BuildError.invalidGeometry ∧
      (∀ k, build_graph n pos = Except.error (BuildError.keyError k) → pos k = none) ∧
      (2 ≤ n → ∀ u, u < n → pos u = none →
        ∃ k, build_graph n pos = Except.error (BuildError.keyError k) ∧ pos k = none) := by
  refine ⟨?_, ?_, ?_⟩
  · intro h
    obtain ⟨k, hk, _⟩ := build_edges_error_chr pos (edge_pairs n) _ h
    exact BuildError.noConfusion hk
  · intro k h
    obtain ⟨k2, hk2, hnone⟩ := build_edges_error_chr pos (edge_pairs n) _ h
    have hkk : k = k2 := BuildError.keyError.inj hk2
    exact hkk ▸ hnone
  · intro hn u hu hnone
    by_cases h0 : u = 0
    · have hmem : ((0 : Nat), (1 : Nat)) ∈ edge_pairs n :=
        (mem_edge_pairs n 0 1).mpr ⟨Nat.zero_lt_one, by omega⟩
      obtain ⟨err, herr⟩ :=
        build_edges_error_of_mem pos (edge_pairs n) (0, 1) hmem (Or.inl (h0 ▸ hnone))
      obtain ⟨k, hk, hkn⟩ := build_edges_error_chr pos (edge_pairs n) err herr
      exact ⟨k, hk ▸ herr, hkn⟩
    · have hmem : ((0 : Nat), u) ∈ edge_pairs n :=
        (mem_edge_pairs n 0 u).mpr ⟨Nat.pos_of_ne_zero h0, hu⟩
      obtain ⟨err, herr⟩ :=
        build_edges_error_of_mem pos (edge_pairs n) (0, u) hmem (Or.inr hnone)
      obtain ⟨k, hk, hkn⟩ := build_edges_error_chr pos (edge_pairs n) err herr
      exact ⟨k, hk ▸ herr, hkn⟩

/-- Witness for C9 (amended) at the two-location layout missing position 1. -/
theorem build_graph_error_is_keyerror_witness :
    (2 ≤ 2 ∧ 1 < 2 ∧
        (fun i => if i = 0 then some ((0 : ℚ), (0 : ℚ)) else none) 1 = none) ∧
      ∃ k, build_graph 2 (fun i => if i = 0 then some ((0 : ℚ), (0 : ℚ)) else none)
          = Except.error (BuildError.keyError k) ∧
        (fun i => if i = 0 then some ((0 : ℚ), (0 : ℚ)) else none) k = none :=
  ⟨⟨by decide, by decide, rfl⟩,
    (build_graph_error_is_keyerror 2
        (fun i => if i = 0 then some ((0 : ℚ), (0 : ℚ)) else none)).2.2
      (by decide) 1 (by decide) rfl⟩

/-- C10: `get_greedy_route` operates on a copy of its `nodes_to_visit`
argument: after the call the caller's list object is unchanged — same
elements in the same order — and the returned route is the one computed by
the pure function on the list's initial value. -/
theorem get_greedy_route_frame (w : Nat → Nat → ℚ) (s : PyHeap) (arg : Nat)
    (harg : arg < s.cells.length) (h0 : 0 ∈ heap_read s arg) :
    heap_read (get_greedy_route_heap w s arg).1 arg = heap_read s arg ∧
      (get_greedy_route_heap w s arg).2 = get_greedy_route w (heap_read s arg) := by
  have hne : arg ≠ s.cells.length := Nat.ne_of_lt harg
  simp only [get_greedy_route_heap, heap_alloc]
  have hr1arg : heap_read ⟨s.cells ++ [heap_read s arg]⟩ arg = heap_read s arg := by
    rw [heap_read, heap_read, List.getD_eq_getElem?_getD, List.getD_eq_getElem?_getD,
      List.getElem?_append]
    simp [harg]
  have hr1au : heap_read ⟨s.cells ++ [heap_read s arg]⟩ s.cells.length
      = heap_read s arg := by
    simp [heap_read, List.getD_eq_getElem?_getD]
  have hau1 : s.cells.length < (PyHeap.mk (s.cells ++ [heap_read s arg])).cells.length := by
    simp
  have hau2 : s.cells.length <
      (heap_write ⟨s.cells ++ [heap_read s arg]⟩ s.cells.length
        ((heap_read ⟨s.cells ++ [heap_read s arg]⟩ s.cells.length).erase 0)).cells.length := by
    rw [heap_write_length]
    exact hau1
  obtain ⟨hroute, hframe⟩ := greedy_loop_heap_spec w
    (heap_read (heap_write ⟨s.cells ++ [heap_read s arg]⟩ s.cells.length
        ((heap_read ⟨s.cells ++ [heap_read s arg]⟩ s.cells.length).erase 0)) s.cells.length).length
    s.cells.length 0
    (heap_write ⟨s.cells ++ [heap_read s arg]⟩ s.cells.length
      ((heap_read ⟨s.cells ++ [heap_read s arg]⟩ s.cells.length).erase 0))
    [0] hau2
  have hr2au : heap_read (heap_write ⟨s.cells ++ [heap_read s arg]⟩ s.cells.length
      ((heap_read ⟨s.cells ++ [heap_read s arg]⟩ s.cells.length).erase 0)) s.cells.length
      = (heap_read s arg).erase 0 := by
    rw [heap_read_write_self _ _ _ hau1, hr1au]
  constructor
  · rw [hframe arg hne, heap_read_write_ne _ _ _ _ hne, hr1arg]
  · rw [hroute, hr2au, get_greedy_route]
    simp

/-- Witness for C10 at a concrete heap holding one caller list. -/
theorem get_greedy_route_frame_witness :
    (0 < (PyHeap.mk [[0, 2, 1]]).cells.length ∧
        0 ∈ heap_read (PyHeap.mk [[0, 2, 1]]) 0) ∧
      heap_read (get_greedy_route_heap (fun u v : Nat => ((u : ℚ) - v) ^ 2)
            (PyHeap.mk [[0, 2, 1]]) 0).1 0
          = heap_read (PyHeap.mk [[0, 2, 1]]) 0 ∧
        (get_greedy_route_heap (fun u v : Nat => ((u : ℚ) - v) ^ 2)
            (PyHeap.mk [[0, 2, 1]]) 0).2
          = get_greedy_route (fun u v : Nat => ((u : ℚ) - v) ^ 2)
              (heap_read (PyHeap.mk [[0, 2, 1]]) 0) :=
  ⟨⟨by decide, by decide⟩,
    get_greedy_route_frame (fun u v : Nat => ((u : ℚ) - v) ^ 2)
      (PyHeap.mk [[0, 2, 1]]) 0 (by decide) (by decide)⟩

/-- Witness for C7 at a concrete graph and route. -/
theorem calculate_route_distance_eq_sum_witness :
    (∀ p ∈ ([0, 1, 0] : List Nat).zip ([0, 1, 0] : List Nat).tail,
        p.1 < (PyGraph.mk 2 (fun _ _ => 2)).n ∧ p.2 < (PyGraph.mk 2 (fun _ _ => 2)).n ∧
          p.1 ≠ p.2) ∧
      calculate_route_distance (PyGraph.mk 2 (fun _ _ => 2)) [0, 1, 0] =
        some (((([0, 1, 0] : List Nat).zip ([0, 1, 0] : List Nat).tail).map
          (fun p => (PyGraph.mk 2 (fun _ _ => 2)).w p.1 p.2)).sum * 100) :=
  ⟨by decide,
    calculate_route_distance_eq_sum (PyGraph.mk 2 (fun _ _ => 2)) [0, 1, 0] (by decide)⟩

end SmartBin
